import Mathlib

set_option maxHeartbeats 1000000

/-!
Shallow embedding of the S3archiver program (src/main.go).

Paths, remote keys and JSON strings are modelled as lists of characters
(Go strings). The local filesystem walk, the paginated S3 listing, the
upload operation and the JSON layer are modelled explicitly; the target
platform is Unix, so `os.PathSeparator` is the character '/' wherever a
concrete separator is needed, and the separator is kept as a parameter
`sep` in the key-derivation code so that the normalization behaviour can
be stated for any separator convention.
-/

abbrev GoPath := List Char

abbrev Key := List Char

/-- Model of strings.TrimPrefix s pre: s without the provided leading
string pre; s is returned unchanged if s does not start with pre. -/
def trimPre (s pre : List Char) : List Char :=
  if pre.isPrefixOf s then s.drop pre.length else s

/-- Model of strings.ReplaceAll specialised to a one-character pattern and
a one-character replacement, as it is used in src/main.go (lines 102-103
and 190): every occurrence of the character a is replaced by b. -/
def replaceAll1 (a b : Char) (s : List Char) : List Char :=
  s.map fun c => if c = a then b else c

/-- Remote-key derivation of the walk callback, src/main.go lines 188-190:
trim the root directory string as a plain string prefix, trim one leading
separator, then replace every separator by '/'. The parameter sep stands
for os.PathSeparator. -/
def s3KeyDerive (sep : Char) (root p : GoPath) : Key :=
  replaceAll1 sep '/' (trimPre (trimPre p root) [sep])

/-- Split a path on the '/' character; an auxiliary step of the lexical
path-cleaning algorithm of Go's path/filepath (Unix rules), which
filepath.Walk applies, through filepath.Join, to every path it reports. -/
def splitSlash : List Char → List (List Char)
  | [] => [[]]
  | c :: cs =>
    if c = '/' then [] :: splitSlash cs
    else
      match splitSlash cs with
      | [] => [[c]]
      | h :: t => (c :: h) :: t

/-- Join path components with the '/' character. -/
def joinSlash : List (List Char) → List Char
  | [] => []
  | [p] => p
  | p :: ps => p ++ '/' :: joinSlash ps

/-- Component processing of Go's filepath.Clean (Unix rules): empty and
"." components are dropped, ".." pops the previous component when one is
available (and is dropped at the start of a rooted path, kept at the
start of a relative path), every other component is kept. -/
def cleanStack (rooted : Bool) : List (List Char) → List (List Char) → List (List Char)
  | acc, [] => acc.reverse
  | acc, c :: cs =>
    if c = [] ∨ c = ['.'] then cleanStack rooted acc cs
    else if c = ['.', '.'] then
      match acc with
      | [] => if rooted then cleanStack rooted [] cs else cleanStack rooted [['.', '.']] cs
      | top :: rest =>
        if top = ['.', '.'] then cleanStack rooted (['.', '.'] :: top :: rest) cs
        else cleanStack rooted rest cs
    else cleanStack rooted (c :: acc) cs

/-- Model of Go's filepath.Clean on Unix: the shortest lexically
equivalent path (empty input cleans to ".", a rooted input stays rooted,
a relative input that cleans away entirely becomes "."). -/
def goClean (p : List Char) : List Char :=
  if p = [] then ['.']
  else if p.head? = some '/' then
    '/' :: joinSlash (cleanStack true [] (splitSlash p))
  else
    let body := joinSlash (cleanStack false [] (splitSlash p))
    if body = [] then ['.'] else body

/-- Model of Go's filepath.Join on two elements (Unix): empty elements
are dropped and the result is Clean of the remaining elements joined
with '/'; Join of two empty strings is the empty string. filepath.Walk
reports the path of every visited child as goJoin of the parent's
reported path and the child's name. -/
def goJoin (a b : List Char) : List Char :=
  if a = [] then
    if b = [] then [] else goClean b
  else if b = [] then goClean a
  else goClean (a ++ '/' :: b)

/-- GenerateArchiveFilePath, src/main.go lines 100-105: replace every
path separator of localDir by an underscore and every colon by a hyphen,
append ".json" and join under archiveDir (os.PathSeparator is '/'). -/
def GenerateArchiveFilePath (archiveDir localDir : List Char) : List Char :=
  let baseName := replaceAll1 '/' '_' localDir
  let baseName2 := replaceAll1 ':' '-' baseName
  goJoin archiveDir (baseName2 ++ ['.', 'j', 's', 'o', 'n'])

/-! ## Manifest store and its JSON layer -/

/-- ArchivedFiles, src/main.go lines 24-27: the manifest, a list of
previously archived remote keys, serialized under the JSON field
"files". -/
structure ArchivedFiles where
  files : List Key
deriving DecidableEq

/-- JSON values, as far as encoding/json distinguishes them for the
claims at hand (the numeric payload carries the integer part only; no
claim inspects a number's value). -/
inductive Json
  | null
  | bool (b : Bool)
  | num (n : Int)
  | str (s : List Char)
  | arr (xs : List Json)
  | obj (fields : List (List Char × Json))

/-- Raw bytes of a manifest file: either well-formed JSON (with its
parse) or syntactically malformed data, on which json.Unmarshal reports
a syntax error. -/
inductive RawData
  | wellFormed (j : Json)
  | malformed

/-- Result of ioutil.ReadFile as LoadArchivedFiles distinguishes it:
the file's data, a does-not-exist error, or any other read error. -/
inductive ReadResult
  | ok (d : RawData)
  | notExist
  | otherErr

/-- Errors LoadArchivedFiles can return: a read error propagated from
ioutil.ReadFile (src/main.go line 36) or an error from json.Unmarshal
(line 41; covering both syntax errors and type-mismatch errors). -/
inductive LoadError
  | readErr
  | unmarshalErr
deriving DecidableEq

/-- Decode a JSON array's elements as Go strings; any non-string element
makes json.Unmarshal fail with a type error. -/
def decodeStringList : List Json → Option (List Key)
  | [] => some []
  | .str s :: rest => (decodeStringList rest).map (s :: ·)
  | _ => none

/-- Whether a JSON object key matches the struct field tagged "files";
encoding/json matches field names case-insensitively. -/
def matchesFiles (k : List Char) : Bool :=
  k.map Char.toLower == ['f', 'i', 'l', 'e', 's']

/-- Decode one value for the Files field: JSON null leaves the field
unchanged, an array of strings replaces it, anything else is a type
error. -/
def setFromValue (cur : List Key) : Json → Option (List Key)
  | .null => some cur
  | .arr xs => decodeStringList xs
  | _ => none

/-- Process a JSON object's fields in order, updating the Files field on
every key that matches "files" (the last occurrence wins), ignoring all
other keys. -/
def unmarshalFields (cur : List Key) : List (List Char × Json) → Option (List Key)
  | [] => some cur
  | (k, v) :: rest =>
    if matchesFiles k then
      match setFromValue cur v with
      | none => none
      | some cur2 => unmarshalFields cur2 rest
    else unmarshalFields cur rest

/-- Model of json.Unmarshal into ArchivedFiles (whose zero value has a
nil Files list): top-level null leaves the zero value, a top-level
object is decoded field by field, any other top-level value is a type
error. -/
def unmarshalArchived : Json → Option ArchivedFiles
  | .null => some ⟨[]⟩
  | .obj fields => (unmarshalFields [] fields).map ArchivedFiles.mk
  | _ => none

/-- LoadArchivedFiles, src/main.go lines 30-42: a missing file yields the
empty manifest with no error; any other read error is returned; otherwise
the data is unmarshalled and any unmarshal error is returned (the caller
treats every returned error as fatal, line 163). -/
def LoadArchivedFiles : ReadResult → Except LoadError ArchivedFiles
  | .notExist => .ok ⟨[]⟩
  | .otherErr => .error .readErr
  | .ok .malformed => .error .unmarshalErr
  | .ok (.wellFormed j) =>
    match unmarshalArchived j with
    | some a => .ok a
    | none => .error .unmarshalErr

/-- Model of json.MarshalIndent of an ArchivedFiles value (src/main.go
line 46): one JSON object whose "files" field is the array of the
manifest's keys as strings. -/
def marshalArchived (a : ArchivedFiles) : Json :=
  .obj [(['f', 'i', 'l', 'e', 's'], .arr (a.files.map .str))]

/-! ## Remote inventory, reconciler and the main pipeline -/

/-- Model of the s3FileMap lookup, src/main.go lines 172-176 and 193: the
listing's keys are inserted into a map with value true, and a lookup of a
missing key yields false, so the lookup is list membership. -/
def s3FileMap (s3Files : List Key) (k : Key) : Bool :=
  s3Files.contains k

/-- Decision of the reconciler for one candidate key. -/
inductive Decision
  | skipRemote
  | skipArchived
  | upload
deriving DecidableEq

/-- Decision logic of the walk callback, src/main.go lines 192-203: skip
when the key is in the S3 listing, else skip when the key equals some
entry of the archived manifest (the linear scan of lines 197-202), else
upload. -/
def decideKey (s3Files archived : List Key) (k : Key) : Decision :=
  if s3FileMap s3Files k then .skipRemote
  else if archived.contains k then .skipArchived
  else .upload

/-- One entry reported by filepath.Walk to the callback: the reported
path, whether the entry's FileInfo says it is a directory, whether the
entry is a regular file (never inspected by the code; recorded so that
the treatment of non-regular entries can be stated), and whether Walk
reports a filesystem error for this entry. -/
structure WalkEntry where
  path : GoPath
  isDir : Bool
  isRegular : Bool
  err : Bool
deriving DecidableEq

/-- Result of one callback invocation: abort carries the key whose upload
was attempted and failed (none when the abort came from a filesystem
error); cont carries the updated in-memory manifest and the key uploaded
at this step, if any. -/
inductive StepResult
  | abort (attempted : Option Key)
  | cont (archived : List Key) (uploaded : Option Key)
deriving DecidableEq

/-- The walk callback, src/main.go lines 179-212: a reported filesystem
error aborts the walk; a directory is traversed but yields nothing; for a
file, the key is derived and the decision logic runs; on an upload
decision UploadFile is invoked, a failed upload aborts the walk without
touching the manifest, a successful upload appends the key to the
in-memory manifest. uploadOk tells which keys the backend accepts. -/
def walkCallback (sep : Char) (root : GoPath) (s3Files : List Key)
    (uploadOk : Key → Bool) (archived : List Key) (e : WalkEntry) : StepResult :=
  if e.err then .abort none
  else if e.isDir then .cont archived none
  else
    let k := s3KeyDerive sep root e.path
    match decideKey s3Files archived k with
    | .skipRemote => .cont archived none
    | .skipArchived => .cont archived none
    | .upload =>
      if uploadOk k then .cont (archived ++ [k]) (some k)
      else .abort (some k)

/-- Outcome of a whole walk: the in-memory manifest when the walk ended,
the keys for which UploadFile was invoked, in order, and whether the walk
aborted with an error. -/
structure WalkOutcome where
  archived : List Key
  attempts : List Key
  aborted : Bool
deriving DecidableEq

/-- filepath.Walk over the callback, src/main.go lines 179-212: entries
are processed in traversal order; the first callback error stops the walk
and is returned, so nothing after it is processed. -/
def runWalkEntries (sep : Char) (root : GoPath) (s3Files : List Key)
    (uploadOk : Key → Bool) : List WalkEntry → List Key → WalkOutcome
  | [], archived => ⟨archived, [], false⟩
  | e :: es, archived =>
    match walkCallback sep root s3Files uploadOk archived e with
    | .abort att => ⟨archived, att.toList, true⟩
    | .cont archived2 up =>
      let rest := runWalkEntries sep root s3Files uploadOk es archived2
      ⟨rest.archived, up.toList ++ rest.attempts, rest.aborted⟩

/-- Accumulating page loop of ListS3Files, src/main.go lines 54-68: keys
of each page are appended; the first page error makes the function return
nil keys and the error, discarding every earlier page. -/
def listS3FilesGo (acc : List Key) : List (Option (List Key)) → Option (List Key)
  | [] => some acc
  | none :: _ => none
  | some ks :: rest => listS3FilesGo (acc ++ ks) rest

/-- ListS3Files, src/main.go lines 54-69, over the sequence of page
results the paginator would deliver: some page-key-lists on success, none
for a failed page request. -/
def listS3Files (pages : List (Option (List Key))) : Option (List Key) :=
  listS3FilesGo [] pages

/-- Observable outcome of one whole process run: whether the process
exited zero, the manifest record on disk after the run, the keys for
which UploadFile was invoked, and how many times the manifest file was
written. -/
structure MainOutcome where
  exitZero : Bool
  disk : List Key
  attempts : List Key
  saves : Nat
deriving DecidableEq

/-- The main pipeline, src/main.go lines 160-223: load the manifest (a
load error is fatal), list the bucket (a listing error is fatal), walk
the local tree deciding per file (a walk or upload error is fatal), and
only then write the manifest file once. Every fatal path leaves the
on-disk manifest record as it was before the run. diskBefore is the
manifest record on disk before the run. -/
def mainModel (sep : Char) (root : GoPath) (loadRes : ReadResult)
    (pages : List (Option (List Key))) (uploadOk : Key → Bool)
    (entries : List WalkEntry) (diskBefore : List Key) : MainOutcome :=
  match LoadArchivedFiles loadRes with
  | .error _ => ⟨false, diskBefore, [], 0⟩
  | .ok archived =>
    match listS3Files pages with
    | none => ⟨false, diskBefore, [], 0⟩
    | some s3Files =>
      let w := runWalkEntries sep root s3Files uploadOk entries archived.files
      if w.aborted then ⟨false, diskBefore, w.attempts, 0⟩
      else ⟨true, w.archived, w.attempts, 1⟩

/-- One run's effect on the on-disk manifest record, for iterating whole
runs: an aborted run terminates through log.Fatalf before the save at
src/main.go line 218 and leaves the record unchanged; a completed run
writes the final in-memory manifest. -/
def runDisk (sep : Char) (root : GoPath) (s3Files : List Key)
    (uploadOk : Key → Bool) (entries : List WalkEntry) (disk : List Key) : List Key :=
  let w := runWalkEntries sep root s3Files uploadOk entries disk
  if w.aborted then disk else w.archived

/-- N successive whole runs over a fixed file set with the same remote
inventory, each run loading the manifest record the previous run left on
disk (SaveArchivedFiles followed by LoadArchivedFiles restores the key
list; see the marshal round-trip lemma). -/
def iterRuns (sep : Char) (root : GoPath) (s3Files : List Key)
    (uploadOk : Key → Bool) (entries : List WalkEntry) : Nat → List Key → List Key
  | 0, disk => disk
  | n + 1, disk => iterRuns sep root s3Files uploadOk entries n
      (runDisk sep root s3Files uploadOk entries disk)

/-! ## Helper lemmas -/

theorem contains_iff (l : List Key) (k : Key) : l.contains k = true ↔ k ∈ l := by
  simp

theorem trimPre_append (pre rest : List Char) : trimPre (pre ++ rest) pre = rest := by
  unfold trimPre
  rw [if_pos]
  · exact List.drop_left pre rest
  · rw [List.isPrefixOf_iff_prefix]
    exact List.prefix_append pre rest

theorem trimPre_cons_single (c d : Char) (l : List Char) (h : c ≠ d) :
    trimPre (d :: l) [c] = d :: l := by
  unfold trimPre
  rw [if_neg]
  simp [List.isPrefixOf]
  exact fun hcd => absurd hcd h

theorem walkCallback_cont (sep : Char) (root : GoPath) (s3Files : List Key)
    (uploadOk : Key → Bool) (a : List Key) (e : WalkEntry) (a2 : List Key) (up : Option Key)
    (h : walkCallback sep root s3Files uploadOk a e = .cont a2 up) :
    (a2 = a ∧ up = none) ∨
    ∃ k, k = s3KeyDerive sep root e.path ∧ a2 = a ++ [k] ∧ up = some k ∧
      decideKey s3Files a k = .upload ∧ uploadOk k = true ∧
      e.err = false ∧ e.isDir = false := by
  unfold walkCallback at h
  by_cases he : e.err
  · simp [he] at h
  · simp only [he, Bool.false_eq_true, if_false] at h
    by_cases hd : e.isDir
    · simp [hd] at h
      exact Or.inl ⟨h.1.symm, h.2.symm⟩
    · simp only [hd, Bool.false_eq_true, if_false] at h
      cases hdec : decideKey s3Files a (s3KeyDerive sep root e.path) with
      | skipRemote =>
        rw [hdec] at h
        simp at h
        exact Or.inl ⟨h.1.symm, h.2.symm⟩
      | skipArchived =>
        rw [hdec] at h
        simp at h
        exact Or.inl ⟨h.1.symm, h.2.symm⟩
      | upload =>
        rw [hdec] at h
        by_cases hup : uploadOk (s3KeyDerive sep root e.path)
        · simp [hup] at h
          refine Or.inr ⟨s3KeyDerive sep root e.path, rfl, h.1.symm, h.2.symm, hdec, hup, ?_, ?_⟩
          · exact Bool.not_eq_true e.err ▸ (by simpa using he)
          · exact Bool.not_eq_true e.isDir ▸ (by simpa using hd)
        · simp [hup] at h

theorem walkCallback_abort (sep : Char) (root : GoPath) (s3Files : List Key)
    (uploadOk : Key → Bool) (a : List Key) (e : WalkEntry) (att : Option Key)
    (h : walkCallback sep root s3Files uploadOk a e = .abort att) :
    (att = none ∧ e.err = true) ∨
    ∃ k, k = s3KeyDerive sep root e.path ∧ att = some k ∧
      decideKey s3Files a k = .upload ∧ uploadOk k = false ∧
      e.err = false ∧ e.isDir = false := by
  unfold walkCallback at h
  by_cases he : e.err
  · simp [he] at h
    exact Or.inl ⟨h.symm, he⟩
  · simp only [he, Bool.false_eq_true, if_false] at h
    by_cases hd : e.isDir
    · simp [hd] at h
    · simp only [hd, Bool.false_eq_true, if_false] at h
      cases hdec : decideKey s3Files a (s3KeyDerive sep root e.path) with
      | skipRemote => rw [hdec] at h; simp at h
      | skipArchived => rw [hdec] at h; simp at h
      | upload =>
        rw [hdec] at h
        by_cases hup : uploadOk (s3KeyDerive sep root e.path)
        · simp [hup] at h
        · simp only [hup, Bool.false_eq_true, if_false, StepResult.abort.injEq] at h
          refine Or.inr ⟨s3KeyDerive sep root e.path, rfl, h.symm, hdec, ?_, ?_, ?_⟩
          · simpa using hup
          · simpa using he
          · simpa using hd

theorem decideKey_skipRemote_iff (s3Files archived : List Key) (k : Key) :
    decideKey s3Files archived k = .skipRemote ↔ k ∈ s3Files := by
  unfold decideKey s3FileMap
  by_cases h : s3Files.contains k
  · simp [h, (contains_iff s3Files k).mp h]
  · simp only [h, Bool.false_eq_true, if_false]
    constructor
    · intro hh
      split at hh <;> simp at hh
    · intro hmem
      exact absurd ((contains_iff s3Files k).mpr hmem) (by simpa using h)

theorem decideKey_skipArchived_iff (s3Files archived : List Key) (k : Key) :
    decideKey s3Files archived k = .skipArchived ↔ k ∉ s3Files ∧ k ∈ archived := by
  unfold decideKey s3FileMap
  by_cases h : s3Files.contains k
  · simp [h, (contains_iff s3Files k).mp h]
  · have hns : k ∉ s3Files := fun hm => absurd ((contains_iff s3Files k).mpr hm) (by simpa using h)
    simp only [h, Bool.false_eq_true, if_false]
    by_cases h2 : archived.contains k
    · simp [h2, hns, (contains_iff archived k).mp h2]
    · have hna : k ∉ archived := fun hm => absurd ((contains_iff archived k).mpr hm) (by simpa using h2)
      simp [h2, hns, hna]

theorem decideKey_upload_iff (s3Files archived : List Key) (k : Key) :
    decideKey s3Files archived k = .upload ↔ k ∉ s3Files ∧ k ∉ archived := by
  unfold decideKey s3FileMap
  by_cases h : s3Files.contains k
  · simp [h, (contains_iff s3Files k).mp h]
  · have hns : k ∉ s3Files := fun hm => absurd ((contains_iff s3Files k).mpr hm) (by simpa using h)
    simp only [h, Bool.false_eq_true, if_false]
    by_cases h2 : archived.contains k
    · simp [h2, (contains_iff archived k).mp h2, hns]
    · have hna : k ∉ archived := fun hm => absurd ((contains_iff archived k).mpr hm) (by simpa using h2)
      simp [h2, hns, hna]

theorem runWalkEntries_extend (sep : Char) (root : GoPath) (s3Files : List Key)
    (uploadOk : Key → Bool) :
    ∀ (es : List WalkEntry) (a : List Key),
      ∃ t, (runWalkEntries sep root s3Files uploadOk es a).archived = a ++ t := by
  intro es
  induction es with
  | nil => intro a; exact ⟨[], by simp [runWalkEntries]⟩
  | cons e es ih =>
    intro a
    simp only [runWalkEntries]
    cases hcb : walkCallback sep root s3Files uploadOk a e with
    | abort att => exact ⟨[], by simp⟩
    | cont a2 up =>
      rcases walkCallback_cont sep root s3Files uploadOk a e a2 up hcb with ⟨ha2, _⟩ | ⟨k, _, ha2, _⟩
      · obtain ⟨t, ht⟩ := ih a2
        exact ⟨t, by simpa [ha2] using ht⟩
      · obtain ⟨t, ht⟩ := ih a2
        exact ⟨[k] ++ t, by rw [ht, ha2, List.append_assoc]⟩

theorem mem_attempts_not_remote (sep : Char) (root : GoPath) (s3Files : List Key)
    (uploadOk : Key → Bool) :
    ∀ (es : List WalkEntry) (a : List Key) (k : Key),
      k ∈ (runWalkEntries sep root s3Files uploadOk es a).attempts → k ∉ s3Files := by
  intro es
  induction es with
  | nil => intro a k hk; simp [runWalkEntries] at hk
  | cons e es ih =>
    intro a k hk
    simp only [runWalkEntries] at hk
    cases hcb : walkCallback sep root s3Files uploadOk a e with
    | abort att =>
      rw [hcb] at hk
      simp only at hk
      rcases walkCallback_abort sep root s3Files uploadOk a e att hcb with
        ⟨hnone, _⟩ | ⟨k2, _, hatt, hdec, _⟩
      · rw [hnone] at hk; simp at hk
      · rw [hatt] at hk
        simp at hk
        rw [hk]
        exact ((decideKey_upload_iff s3Files a k2).mp hdec).1
    | cont a2 up =>
      rw [hcb] at hk
      simp only at hk
      rcases List.mem_append.mp hk with hk1 | hk2
      · rcases walkCallback_cont sep root s3Files uploadOk a e a2 up hcb with
          ⟨_, hnone⟩ | ⟨k2, _, _, hup, hdec, _⟩
        · rw [hnone] at hk1; simp at hk1
        · rw [hup] at hk1
          simp at hk1
          rw [hk1]
          exact ((decideKey_upload_iff s3Files a k2).mp hdec).1
      · exact ih a2 k hk2

theorem err_false_of_not_aborted (sep : Char) (root : GoPath) (s3Files : List Key)
    (uploadOk : Key → Bool) :
    ∀ (es : List WalkEntry) (a : List Key),
      (runWalkEntries sep root s3Files uploadOk es a).aborted = false →
      ∀ e ∈ es, e.err = false := by
  intro es
  induction es with
  | nil => intro a _ e he; simp at he
  | cons e0 es ih =>
    intro a hab e he
    simp only [runWalkEntries] at hab
    cases hcb : walkCallback sep root s3Files uploadOk a e0 with
    | abort att => rw [hcb] at hab; simp at hab
    | cont a2 up =>
      rw [hcb] at hab
      have hab2 : (runWalkEntries sep root s3Files uploadOk es a2).aborted = false := hab
      rcases List.mem_cons.mp he with he0 | hes
      · rw [he0]
        by_cases herr : e0.err
        · exfalso
          unfold walkCallback at hcb
          simp [herr] at hcb
        · simpa using herr
      · exact ih a2 hab2 e hes

theorem covered_of_not_aborted (sep : Char) (root : GoPath) (s3Files : List Key)
    (uploadOk : Key → Bool) :
    ∀ (es : List WalkEntry) (a : List Key),
      (runWalkEntries sep root s3Files uploadOk es a).aborted = false →
      ∀ e ∈ es, e.isDir = false →
        s3KeyDerive sep root e.path ∈ s3Files ∨
        s3KeyDerive sep root e.path ∈ (runWalkEntries sep root s3Files uploadOk es a).archived := by
  intro es
  induction es with
  | nil => intro a _ e he; simp at he
  | cons e0 es ih =>
    intro a hab e he hdir
    simp only [runWalkEntries] at hab ⊢
    cases hcb : walkCallback sep root s3Files uploadOk a e0 with
    | abort att => rw [hcb] at hab; simp at hab
    | cont a2 up =>
      rw [hcb] at hab
      have hab2 : (runWalkEntries sep root s3Files uploadOk es a2).aborted = false := hab
      show _ ∨ s3KeyDerive sep root e.path ∈
        (runWalkEntries sep root s3Files uploadOk es a2).archived
      rcases List.mem_cons.mp he with he0 | hes
      · subst he0
        have herr : e.err = false := by
          by_cases herr : e.err
          · exfalso; unfold walkCallback at hcb; simp [herr] at hcb
          · simpa using herr
        unfold walkCallback at hcb
        rw [herr] at hcb
        simp only [Bool.false_eq_true, if_false, hdir] at hcb
        cases hdec : decideKey s3Files a (s3KeyDerive sep root e.path) with
        | skipRemote =>
          exact Or.inl ((decideKey_skipRemote_iff s3Files a (s3KeyDerive sep root e.path)).mp hdec)
        | skipArchived =>
          rw [hdec] at hcb
          simp at hcb
          obtain ⟨t, ht⟩ := runWalkEntries_extend sep root s3Files uploadOk es a2
          rw [ht, ← hcb.1]
          exact Or.inr (List.mem_append_left t
            ((decideKey_skipArchived_iff s3Files a (s3KeyDerive sep root e.path)).mp hdec).2)
        | upload =>
          rw [hdec] at hcb
          by_cases hup : uploadOk (s3KeyDerive sep root e.path)
          · simp [hup] at hcb
            obtain ⟨t, ht⟩ := runWalkEntries_extend sep root s3Files uploadOk es a2
            rw [ht, ← hcb.1]
            refine Or.inr (List.mem_append_left t ?_)
            exact List.mem_append_right a (by simp)
          · simp [hup] at hcb
      · exact ih a2 hab2 e hes hdir

theorem run_all_skip (sep : Char) (root : GoPath) (s3Files : List Key)
    (uploadOk : Key → Bool) :
    ∀ (es : List WalkEntry) (a : List Key),
      (∀ e ∈ es, e.err = false) →
      (∀ e ∈ es, e.isDir = false →
        s3KeyDerive sep root e.path ∈ s3Files ∨ s3KeyDerive sep root e.path ∈ a) →
      runWalkEntries sep root s3Files uploadOk es a = ⟨a, [], false⟩ := by
  intro es
  induction es with
  | nil => intro a _ _; rfl
  | cons e0 es ih =>
    intro a herr hcov
    have he0err : e0.err = false := herr e0 (by simp)
    have hcb : walkCallback sep root s3Files uploadOk a e0 = .cont a none := by
      unfold walkCallback
      rw [he0err]
      simp only [Bool.false_eq_true, if_false]
      by_cases hdir : e0.isDir
      · simp [hdir]
      · simp only [hdir, Bool.false_eq_true, if_false]
        have hc := hcov e0 (by simp) (by simpa using hdir)
        cases hdec : decideKey s3Files a (s3KeyDerive sep root e0.path) with
        | skipRemote => simp
        | skipArchived => simp
        | upload =>
          exfalso
          have := (decideKey_upload_iff s3Files a (s3KeyDerive sep root e0.path)).mp hdec
          rcases hc with hc | hc
          · exact this.1 hc
          · exact this.2 hc
    simp only [runWalkEntries, hcb]
    rw [ih a (fun e he => herr e (by simp [he])) (fun e he hd => hcov e (by simp [he]) hd)]
    simp

theorem run_nodup (sep : Char) (root : GoPath) (s3Files : List Key)
    (uploadOk : Key → Bool) :
    ∀ (es : List WalkEntry) (a : List Key), a.Nodup →
      (runWalkEntries sep root s3Files uploadOk es a).archived.Nodup := by
  intro es
  induction es with
  | nil => intro a ha; simpa [runWalkEntries] using ha
  | cons e es ih =>
    intro a ha
    simp only [runWalkEntries]
    cases hcb : walkCallback sep root s3Files uploadOk a e with
    | abort att => exact ha
    | cont a2 up =>
      rcases walkCallback_cont sep root s3Files uploadOk a e a2 up hcb with
        ⟨ha2, _⟩ | ⟨k, _, ha2, _, hdec, _⟩
      · exact ih a2 (ha2 ▸ ha)
      · refine ih a2 ?_
        rw [ha2]
        refine List.nodup_append.mpr ⟨ha, by simp, ?_⟩
        intro x hx hx2
        have hxk : x = k := by simpa using hx2
        exact ((decideKey_upload_iff s3Files a k).mp hdec).2 (hxk ▸ hx)

theorem not_uploadOk_mem_archived (sep : Char) (root : GoPath) (s3Files : List Key)
    (uploadOk : Key → Bool) :
    ∀ (es : List WalkEntry) (a : List Key) (k : Key), uploadOk k = false →
      k ∈ (runWalkEntries sep root s3Files uploadOk es a).archived → k ∈ a := by
  intro es
  induction es with
  | nil => intro a k _ hk; simpa [runWalkEntries] using hk
  | cons e es ih =>
    intro a k hupk hk
    simp only [runWalkEntries] at hk
    cases hcb : walkCallback sep root s3Files uploadOk a e with
    | abort att => rw [hcb] at hk; exact hk
    | cont a2 up =>
      rw [hcb] at hk
      have hk2 : k ∈ (runWalkEntries sep root s3Files uploadOk es a2).archived := hk
      have hka2 : k ∈ a2 := ih a2 k hupk hk2
      rcases walkCallback_cont sep root s3Files uploadOk a e a2 up hcb with
        ⟨ha2, _⟩ | ⟨k2, _, ha2, _, _, hupk2, _⟩
      · exact ha2 ▸ hka2
      · rw [ha2] at hka2
        rcases List.mem_append.mp hka2 with h | h
        · exact h
        · exfalso
          have hxk : k = k2 := by simpa using h
          rw [hxk, hupk2] at hupk
          simp at hupk

theorem runDisk_fix (sep : Char) (root : GoPath) (s3Files : List Key)
    (uploadOk : Key → Bool) (entries : List WalkEntry) (d : List Key) :
    runDisk sep root s3Files uploadOk entries (runDisk sep root s3Files uploadOk entries d) =
      runDisk sep root s3Files uploadOk entries d := by
  by_cases hab : (runWalkEntries sep root s3Files uploadOk entries d).aborted
  · have h1 : runDisk sep root s3Files uploadOk entries d = d := by
      unfold runDisk
      simp [hab]
    rw [h1]
    exact h1
  · have hab2 : (runWalkEntries sep root s3Files uploadOk entries d).aborted = false := by
      simpa using hab
    have h1 : runDisk sep root s3Files uploadOk entries d =
        (runWalkEntries sep root s3Files uploadOk entries d).archived := by
      unfold runDisk
      simp [hab2]
    rw [h1]
    have herr := err_false_of_not_aborted sep root s3Files uploadOk entries d hab2
    have hcov := covered_of_not_aborted sep root s3Files uploadOk entries d hab2
    have hrun := run_all_skip sep root s3Files uploadOk entries
      (runWalkEntries sep root s3Files uploadOk entries d).archived herr hcov
    unfold runDisk
    rw [hrun]
    simp

theorem listS3FilesGo_none :
    ∀ (pages : List (Option (List Key))), none ∈ pages →
      ∀ acc, listS3FilesGo acc pages = none := by
  intro pages
  induction pages with
  | nil => intro h; simp at h
  | cons p ps ih =>
    intro h acc
    cases p with
    | none => rfl
    | some ks =>
      have : none ∈ ps := by
        rcases List.mem_cons.mp h with h1 | h2
        · exact absurd h1 (by simp)
        · exact h2
      exact ih this (acc ++ ks)

theorem decodeStringList_map_str (fs : List Key) :
    decodeStringList (fs.map Json.str) = some fs := by
  induction fs with
  | nil => rfl
  | cons f fs ih => simp [decodeStringList, ih]

theorem unmarshal_marshal (a : ArchivedFiles) :
    unmarshalArchived (marshalArchived a) = some a := by
  cases a with
  | mk fs =>
    have hm : matchesFiles ['f', 'i', 'l', 'e', 's'] = true := by decide
    simp [marshalArchived, unmarshalArchived, unmarshalFields, hm, setFromValue,
      decodeStringList_map_str]

theorem unmarshalFields_keep :
    ∀ (fields : List (List Char × Json)) (cur : List Key),
      (∀ p ∈ fields, matchesFiles p.1 = true → p.2 = Json.null) →
      unmarshalFields cur fields = some cur := by
  intro fields
  induction fields with
  | nil => intro cur _; rfl
  | cons p ps ih =>
    intro cur h
    cases p with
    | mk k v =>
      unfold unmarshalFields
      by_cases hm : matchesFiles k
      · have hv : v = Json.null := h (k, v) (by simp) hm
        rw [hm, hv]
        simp only [setFromValue, if_true]
        exact ih cur (fun q hq hmq => h q (by simp [hq]) hmq)
      · simp only [hm, Bool.false_eq_true, if_false]
        exact ih cur (fun q hq hmq => h q (by simp [hq]) hmq)

theorem splitSlash_no_slash :
    ∀ (y : List Char), '/' ∉ y → splitSlash y = [y] := by
  intro y
  induction y with
  | nil => intro _; rfl
  | cons c cs ih =>
    intro h
    have hc : c ≠ '/' := fun hcc => h (by simp [hcc])
    have hcs : '/' ∉ cs := fun hm => h (by simp [hm])
    unfold splitSlash
    rw [if_neg hc, ih hcs]

theorem splitSlash_append_slash :
    ∀ (x y : List Char), '/' ∉ x → splitSlash (x ++ '/' :: y) = x :: splitSlash y := by
  intro x
  induction x with
  | nil =>
    intro y _
    show splitSlash ('/' :: y) = [] :: splitSlash y
    simp only [splitSlash]
    simp
  | cons c cs ih =>
    intro y h
    have hc : c ≠ '/' := fun hcc => h (by simp [hcc])
    have hcs : '/' ∉ cs := fun hm => h (by simp [hm])
    show splitSlash (c :: (cs ++ '/' :: y)) = (c :: cs) :: splitSlash y
    simp only [splitSlash]
    rw [if_neg hc, ih y hcs]

theorem cleanStack_push (rooted : Bool) (acc : List (List Char)) (c : List Char)
    (cs : List (List Char)) (h1 : c ≠ []) (h2 : c ≠ ['.']) (h3 : c ≠ ['.', '.']) :
    cleanStack rooted acc (c :: cs) = cleanStack rooted (c :: acc) cs := by
  simp only [cleanStack]
  rw [if_neg (by simp [h1, h2]), if_neg h3]

theorem goClean_two_comps (x y : List Char)
    (hx1 : x ≠ []) (hx2 : '/' ∉ x) (hx3 : x ≠ ['.']) (hx4 : x ≠ ['.', '.'])
    (hy1 : y ≠ []) (hy2 : '/' ∉ y) (hy3 : y ≠ ['.']) (hy4 : y ≠ ['.', '.']) :
    goClean (x ++ '/' :: y) = x ++ '/' :: y := by
  obtain ⟨c, cs, rfl⟩ : ∃ c cs, x = c :: cs := by
    cases x with
    | nil => exact absurd rfl hx1
    | cons c cs => exact ⟨c, cs, rfl⟩
  have hc : c ≠ '/' := fun hcc => hx2 (by simp [hcc])
  unfold goClean
  rw [if_neg (by simp), if_neg (by simp [hc])]
  rw [splitSlash_append_slash (c :: cs) y hx2, splitSlash_no_slash y hy2]
  rw [cleanStack_push false [] (c :: cs) [y] (by simp) hx3 hx4]
  rw [cleanStack_push false [c :: cs] y [] hy1 hy3 hy4]
  show (if joinSlash [c :: cs, y] = [] then ['.'] else joinSlash [c :: cs, y]) = _
  simp [joinSlash]

theorem trimPre_cons_self (c : Char) (l : List Char) : trimPre (c :: l) [c] = l := by
  unfold trimPre
  rw [if_pos]
  · rfl
  · simp [List.isPrefixOf]

theorem baseName2_inj :
    ∀ (r1 r2 : List Char),
      (∀ c ∈ r1, c ≠ '_' ∧ c ≠ '-') → (∀ c ∈ r2, c ≠ '_' ∧ c ≠ '-') →
      replaceAll1 ':' '-' (replaceAll1 '/' '_' r1) =
        replaceAll1 ':' '-' (replaceAll1 '/' '_' r2) →
      r1 = r2 := by
  intro r1
  induction r1 with
  | nil =>
    intro r2 _ _ h
    cases r2 with
    | nil => rfl
    | cons b bs => simp [replaceAll1] at h
  | cons a as ih =>
    intro r2 h1 h2 h
    cases r2 with
    | nil => simp [replaceAll1] at h
    | cons b bs =>
      simp only [replaceAll1, List.map_cons, List.cons.injEq] at h
      obtain ⟨hhead, htail⟩ := h
      have ha := h1 a (by simp)
      have hb := h2 b (by simp)
      have hab : a = b := by
        by_cases hA : a = '/' <;> by_cases hB : b = '/' <;>
          by_cases hA2 : a = ':' <;> by_cases hB2 : b = ':' <;>
          simp [hA, hB, hA2, hB2] at hhead <;>
          first
          | exact absurd hhead.symm hb.1
          | exact absurd hhead.symm hb.2
          | exact absurd hhead ha.1
          | exact absurd hhead ha.2
          | simp_all
      refine hab ▸ congrArg (a :: ·) ?_
      have has : ∀ c ∈ as, c ≠ '_' ∧ c ≠ '-' := fun c hc => h1 c (by simp [hc])
      have hbs : ∀ c ∈ bs, c ≠ '_' ∧ c ≠ '-' := fun c hc => h2 c (by simp [hc])
      exact ih bs has hbs (by simpa [replaceAll1] using htail)

theorem no_slash_baseName2 (r : List Char) :
    '/' ∉ replaceAll1 ':' '-' (replaceAll1 '/' '_' r) := by
  intro hm
  simp only [replaceAll1, List.map_map, List.mem_map, Function.comp] at hm
  obtain ⟨c, _, hc⟩ := hm
  by_cases h1 : c = '/' <;> by_cases h2 : c = ':' <;> simp [h1, h2] at hc

theorem iterRuns_collapse (sep : Char) (root : GoPath) (s3Files : List Key)
    (uploadOk : Key → Bool) (entries : List WalkEntry) :
    ∀ (n : Nat) (d : List Key),
      iterRuns sep root s3Files uploadOk entries (n + 1) d =
        runDisk sep root s3Files uploadOk entries d := by
  intro n
  induction n with
  | zero => intro d; simp only [iterRuns]
  | succ m ih =>
    intro d
    show iterRuns sep root s3Files uploadOk entries (m + 1)
      (runDisk sep root s3Files uploadOk entries d) = _
    rw [ih (runDisk sep root s3Files uploadOk entries d),
      runDisk_fix sep root s3Files uploadOk entries d]

theorem run_err_cut (sep : Char) (root : GoPath) (s3Files : List Key) (uploadOk : Key → Bool)
    (e : WalkEntry) (herr : e.err = true) :
    ∀ (pre post : List WalkEntry) (a0 : List Key),
      runWalkEntries sep root s3Files uploadOk (pre ++ e :: post) a0 =
        runWalkEntries sep root s3Files uploadOk (pre ++ [e]) a0 ∧
      (runWalkEntries sep root s3Files uploadOk (pre ++ e :: post) a0).aborted = true := by
  intro pre
  induction pre with
  | nil =>
    intro post a0
    have hcb : walkCallback sep root s3Files uploadOk a0 e = .abort none := by
      unfold walkCallback
      simp [herr]
    constructor
    · show runWalkEntries sep root s3Files uploadOk (e :: post) a0 =
        runWalkEntries sep root s3Files uploadOk (e :: []) a0
      simp only [runWalkEntries, hcb]
    · show (runWalkEntries sep root s3Files uploadOk (e :: post) a0).aborted = true
      simp only [runWalkEntries, hcb]
  | cons p pre ih =>
    intro post a0
    constructor
    · show runWalkEntries sep root s3Files uploadOk (p :: (pre ++ e :: post)) a0 =
        runWalkEntries sep root s3Files uploadOk (p :: (pre ++ [e])) a0
      simp only [runWalkEntries]
      cases hcb : walkCallback sep root s3Files uploadOk a0 p with
      | abort att => rfl
      | cont a2 up =>
        show (⟨(runWalkEntries sep root s3Files uploadOk (pre ++ e :: post) a2).archived,
          up.toList ++ (runWalkEntries sep root s3Files uploadOk (pre ++ e :: post) a2).attempts,
          (runWalkEntries sep root s3Files uploadOk (pre ++ e :: post) a2).aborted⟩ : WalkOutcome) =
          ⟨(runWalkEntries sep root s3Files uploadOk (pre ++ [e]) a2).archived,
          up.toList ++ (runWalkEntries sep root s3Files uploadOk (pre ++ [e]) a2).attempts,
          (runWalkEntries sep root s3Files uploadOk (pre ++ [e]) a2).aborted⟩
        rw [(ih post a2).1]
    · show (runWalkEntries sep root s3Files uploadOk (p :: (pre ++ e :: post)) a0).aborted = true
      simp only [runWalkEntries]
      cases hcb : walkCallback sep root s3Files uploadOk a0 p with
      | abort att => rfl
      | cont a2 up =>
        show (runWalkEntries sep root s3Files uploadOk (pre ++ e :: post) a2).aborted = true
        exact (ih post a2).2

/-! ## Claims -/

/-- C1: for every file yielded by the walk the reconciler decides in
exactly this order: a key present in the remote inventory snapshot is
skipped, otherwise a key present in the manifest's key list is skipped,
otherwise the file is uploaded; and over a whole run, UploadFile is
never invoked for any key present in the remote inventory snapshot. -/
theorem c1_decision_order :
    (∀ (s3Files archived : List Key) (k : Key),
      (decideKey s3Files archived k = .skipRemote ↔ k ∈ s3Files) ∧
      (decideKey s3Files archived k = .skipArchived ↔ k ∉ s3Files ∧ k ∈ archived) ∧
      (decideKey s3Files archived k = .upload ↔ k ∉ s3Files ∧ k ∉ archived)) ∧
    (∀ (sep : Char) (root : GoPath) (s3Files : List Key) (uploadOk : Key → Bool)
      (entries : List WalkEntry) (archived0 : List Key) (k : Key),
      k ∈ s3Files →
      k ∉ (runWalkEntries sep root s3Files uploadOk entries archived0).attempts) := by
  constructor
  · intro s3Files archived k
    exact ⟨decideKey_skipRemote_iff s3Files archived k,
      decideKey_skipArchived_iff s3Files archived k,
      decideKey_upload_iff s3Files archived k⟩
  · intro sep root s3Files uploadOk entries archived0 k hk hmem
    exact mem_attempts_not_remote sep root s3Files uploadOk entries archived0 k hmem hk

/-- Witness for C1 at concrete inputs: the key "a" is in the remote
inventory snapshot, so the decision is skipRemote and the one-file run
attempts no upload of it. -/
theorem c1_decision_order_witness :
    decideKey [['a']] [] ['a'] = .skipRemote ∧
    ['a'] ∉ (runWalkEntries '/' ['r'] [['a']] (fun _ => true)
      [⟨['r', '/', 'a'], false, true, false⟩] []).attempts :=
  ⟨(c1_decision_order.1 [['a']] [] ['a']).1.mpr (by simp),
   c1_decision_order.2 '/' ['r'] [['a']] (fun _ => true)
     [⟨['r', '/', 'a'], false, true, false⟩] [] ['a'] (by simp)⟩

/-- C2: with a first run that completes, a second run over the same
entries whose remote inventory is the first run's inventory plus the
keys uploaded in the first run, and whose manifest is loaded from the
record the first run saved, invokes UploadFile for no file at all. -/
theorem c2_second_run_uploads_nothing (sep : Char) (root : GoPath) (s3Files1 : List Key)
    (uploadOk1 uploadOk2 : Key → Bool) (entries : List WalkEntry) (a0 : List Key)
    (hok : (runWalkEntries sep root s3Files1 uploadOk1 entries a0).aborted = false)
    (a1 : ArchivedFiles)
    (hload : LoadArchivedFiles (.ok (.wellFormed (marshalArchived
      ⟨(runWalkEntries sep root s3Files1 uploadOk1 entries a0).archived⟩))) = .ok a1) :
    (runWalkEntries sep root
      (s3Files1 ++ (runWalkEntries sep root s3Files1 uploadOk1 entries a0).attempts)
      uploadOk2 entries a1.files).attempts = [] := by
  have hL : LoadArchivedFiles (.ok (.wellFormed (marshalArchived
      ⟨(runWalkEntries sep root s3Files1 uploadOk1 entries a0).archived⟩))) =
      .ok ⟨(runWalkEntries sep root s3Files1 uploadOk1 entries a0).archived⟩ := by
    simp [LoadArchivedFiles, unmarshal_marshal]
  rw [hL] at hload
  have hfiles : a1.files = (runWalkEntries sep root s3Files1 uploadOk1 entries a0).archived := by
    injection hload with h
    rw [← h]
  have herr := err_false_of_not_aborted sep root s3Files1 uploadOk1 entries a0 hok
  have hcov := covered_of_not_aborted sep root s3Files1 uploadOk1 entries a0 hok
  have hcov2 : ∀ e ∈ entries, e.isDir = false →
      s3KeyDerive sep root e.path ∈
        s3Files1 ++ (runWalkEntries sep root s3Files1 uploadOk1 entries a0).attempts ∨
      s3KeyDerive sep root e.path ∈ a1.files := by
    intro e he hd
    rcases hcov e he hd with h | h
    · exact Or.inl (List.mem_append_left _ h)
    · rw [hfiles]
      exact Or.inr h
  rw [run_all_skip sep root
    (s3Files1 ++ (runWalkEntries sep root s3Files1 uploadOk1 entries a0).attempts)
    uploadOk2 entries a1.files herr hcov2]

/-- Witness for C2 at concrete inputs: one file with key "a", empty
inventory and manifest; the first run uploads it, the second run (with
the inventory extended by the uploaded key and the saved manifest
reloaded) uploads nothing. -/
theorem c2_second_run_uploads_nothing_witness :
    (runWalkEntries '/' ['d']
      ([] ++ (runWalkEntries '/' ['d'] [] (fun _ => true)
        [⟨['d', '/', 'a'], false, true, false⟩] []).attempts)
      (fun _ => true) [⟨['d', '/', 'a'], false, true, false⟩]
      (⟨[['a']]⟩ : ArchivedFiles).files).attempts = [] :=
  c2_second_run_uploads_nothing '/' ['d'] [] (fun _ => true) (fun _ => true)
    [⟨['d', '/', 'a'], false, true, false⟩] [] (by decide) ⟨[['a']]⟩ (by rfl)

/-- C3: starting from a duplicate-free manifest the manifest stays
duplicate-free after a run; the manifest record after N successive runs
(same entries, same inventory) equals the record after 1 run; and
processing a file whose key is already in the manifest leaves the
manifest unchanged (no duplicate is ever appended). -/
theorem c3_no_duplicate_entries (sep : Char) (root : GoPath) (s3Files : List Key)
    (uploadOk : Key → Bool) (entries : List WalkEntry) :
    (∀ a0 : List Key, a0.Nodup →
      (runWalkEntries sep root s3Files uploadOk entries a0).archived.Nodup) ∧
    (∀ (N : Nat), 1 ≤ N → ∀ d0 : List Key,
      iterRuns sep root s3Files uploadOk entries N d0 =
        iterRuns sep root s3Files uploadOk entries 1 d0) ∧
    (∀ (a : List Key) (e : WalkEntry), e.err = false → e.isDir = false →
      a.contains (s3KeyDerive sep root e.path) = true →
      walkCallback sep root s3Files uploadOk a e = .cont a none) := by
  refine ⟨run_nodup sep root s3Files uploadOk entries, ?_, ?_⟩
  · intro N hN d0
    obtain ⟨m, rfl⟩ : ∃ m, N = m + 1 := ⟨N - 1, by omega⟩
    rw [iterRuns_collapse sep root s3Files uploadOk entries m d0]
    rw [show (1 : Nat) = 0 + 1 from rfl,
      iterRuns_collapse sep root s3Files uploadOk entries 0 d0]
  · intro a e herr hdir hc
    unfold walkCallback
    simp only [herr, hdir, Bool.false_eq_true, if_false]
    by_cases hrem : s3FileMap s3Files (s3KeyDerive sep root e.path) = true
    · have hd : decideKey s3Files a (s3KeyDerive sep root e.path) = .skipRemote := by
        unfold decideKey
        rw [if_pos hrem]
      rw [hd]
    · have hd : decideKey s3Files a (s3KeyDerive sep root e.path) = .skipArchived := by
        unfold decideKey
        rw [if_neg hrem, if_pos hc]
      rw [hd]

/-- Witness for C3 at concrete inputs: one file with key "a"; the run's
manifest has no duplicates, three runs leave the same record as one run,
and the callback is a no-op on a manifest already holding "a". -/
theorem c3_no_duplicate_entries_witness :
    (runWalkEntries '/' ['r'] [] (fun _ => true)
      [⟨['r', '/', 'a'], false, true, false⟩] []).archived.Nodup ∧
    iterRuns '/' ['r'] [] (fun _ => true) [⟨['r', '/', 'a'], false, true, false⟩] 3 [] =
      iterRuns '/' ['r'] [] (fun _ => true) [⟨['r', '/', 'a'], false, true, false⟩] 1 [] ∧
    walkCallback '/' ['r'] [] (fun _ => true) [['a']] ⟨['r', '/', 'a'], false, true, false⟩ =
      .cont [['a']] none :=
  ⟨(c3_no_duplicate_entries '/' ['r'] [] (fun _ => true)
      [⟨['r', '/', 'a'], false, true, false⟩]).1 [] (by simp),
   (c3_no_duplicate_entries '/' ['r'] [] (fun _ => true)
      [⟨['r', '/', 'a'], false, true, false⟩]).2.1 3 (by omega) [],
   (c3_no_duplicate_entries '/' ['r'] [] (fun _ => true)
      [⟨['r', '/', 'a'], false, true, false⟩]).2.2 [['a']]
      ⟨['r', '/', 'a'], false, true, false⟩ rfl rfl (by decide)⟩

/-- C5: LoadArchivedFiles on a missing file returns the empty manifest
with no error, on syntactically malformed contents returns the parse
error the caller treats as fatal, and on any other read error returns
that error. -/
theorem c5_load_error_handling :
    LoadArchivedFiles .notExist = .ok ⟨[]⟩ ∧
    LoadArchivedFiles (.ok .malformed) = .error .unmarshalErr ∧
    LoadArchivedFiles .otherErr = .error .readErr :=
  ⟨rfl, rfl, rfl⟩

/-- C4 counterexample: with the archive root given in the non-canonical
form "./data", filepath.Walk reports the file "b.txt" under it at the
cleaned path "data/b.txt" (goJoin of the root and the name); the path
relative to the root is "b.txt", yet the derived key keeps the directory
component, so the claim fails for non-canonical roots. -/
theorem c4_counterexample :
    s3KeyDerive '/' ['.', '/', 'd', 'a', 't', 'a']
      (goJoin ['.', '/', 'd', 'a', 't', 'a'] ['b', '.', 't', 'x', 't']) ≠
      ['b', '.', 't', 'x', 't'] := by decide

/-- C4 (amended): for archive roots in canonical (cleaned) form — for
which every walk-reported file path has the form root ++ separator ++
relative path — and likewise for such roots written with one trailing
separator, the derived remote key is the relative path with every OS
path separator replaced by '/', and carries no leading separator;
non-canonical roots such as "./data" are excluded (see the
counterexample). -/
theorem c4_key_normalization (sep : Char) (root rel : List Char)
    (hne : rel ≠ []) (hsep : rel.head? ≠ some sep) (hslash : rel.head? ≠ some '/') :
    s3KeyDerive sep root (root ++ sep :: rel) = replaceAll1 sep '/' rel ∧
    s3KeyDerive sep (root ++ [sep]) (root ++ sep :: rel) = replaceAll1 sep '/' rel ∧
    (s3KeyDerive sep root (root ++ sep :: rel)).head? ≠ some '/' := by
  obtain ⟨c, rel2, rfl⟩ : ∃ c rel2, rel = c :: rel2 := by
    cases rel with
    | nil => exact absurd rfl hne
    | cons c l => exact ⟨c, l, rfl⟩
  have hcsep : c ≠ sep := fun h => hsep (by simp [h])
  have hcslash : c ≠ '/' := fun h => hslash (by simp [h])
  have h1 : s3KeyDerive sep root (root ++ sep :: c :: rel2) =
      replaceAll1 sep '/' (c :: rel2) := by
    unfold s3KeyDerive
    rw [trimPre_append root (sep :: c :: rel2), trimPre_cons_self sep (c :: rel2)]
  refine ⟨h1, ?_, ?_⟩
  · unfold s3KeyDerive
    have hsplit : root ++ sep :: c :: rel2 = (root ++ [sep]) ++ c :: rel2 := by simp
    rw [hsplit, trimPre_append (root ++ [sep]) (c :: rel2),
      trimPre_cons_single sep c rel2 (Ne.symm hcsep)]
  · rw [h1]
    simp only [replaceAll1, List.map_cons, List.head?_cons]
    rw [if_neg hcsep]
    simp [hcslash]

/-- Witness for C4 at concrete inputs, with the Windows separator
convention: the key for the file at relative path "s\b" under root
"C:\d" is "s/b" — forward slashes regardless of the separator — for the
root with and without a trailing separator, with no leading '/'. -/
theorem c4_key_normalization_witness :
    s3KeyDerive '\\' ['C', ':', '\\', 'd']
      (['C', ':', '\\', 'd'] ++ '\\' :: ['s', '\\', 'b']) =
      replaceAll1 '\\' '/' ['s', '\\', 'b'] ∧
    s3KeyDerive '\\' (['C', ':', '\\', 'd'] ++ ['\\'])
      (['C', ':', '\\', 'd'] ++ '\\' :: ['s', '\\', 'b']) =
      replaceAll1 '\\' '/' ['s', '\\', 'b'] ∧
    (s3KeyDerive '\\' ['C', ':', '\\', 'd']
      (['C', ':', '\\', 'd'] ++ '\\' :: ['s', '\\', 'b'])).head? ≠ some '/' :=
  c4_key_normalization '\\' ['C', ':', '\\', 'd'] ['s', '\\', 'b']
    (by decide) (by decide) (by decide)

/-- C6: a failed page makes ListS3Files return an error and no keys
(earlier pages are discarded), and the process then exits non-zero with
no upload attempted, no manifest write, and the on-disk manifest record
unchanged. -/
theorem c6_listing_failure (sep : Char) (root : GoPath) (loadRes : ReadResult)
    (pages : List (Option (List Key))) (uploadOk : Key → Bool)
    (entries : List WalkEntry) (diskBefore : List Key)
    (hfail : none ∈ pages) :
    listS3Files pages = none ∧
    mainModel sep root loadRes pages uploadOk entries diskBefore =
      ⟨false, diskBefore, [], 0⟩ := by
  have hnone : listS3Files pages = none := listS3FilesGo_none pages hfail []
  refine ⟨hnone, ?_⟩
  unfold mainModel
  cases hload : LoadArchivedFiles loadRes with
  | error e => rfl
  | ok archived =>
    rw [hnone]

/-- Witness for C6 at concrete inputs: a two-page listing whose second
page fails yields no keys, and the run leaves the disk record "a"
untouched with no upload and no save. -/
theorem c6_listing_failure_witness :
    listS3Files [some [['b']], none] = none ∧
    mainModel '/' ['r'] .notExist [some [['b']], none] (fun _ => true)
      [⟨['r', '/', 'x'], false, true, false⟩] [['a']] = ⟨false, [['a']], [], 0⟩ :=
  c6_listing_failure '/' ['r'] .notExist [some [['b']], none] (fun _ => true)
    [⟨['r', '/', 'x'], false, true, false⟩] [['a']] (by simp)

/-- C7: a key whose upload fails is never newly appended to the
manifest; the manifest file is written at most once per run; and when
the walk aborts (walk or upload failure) the manifest file is not
written at all, leaving the on-disk record unchanged, although uploads
earlier in the failed run may have happened. -/
theorem c7_upload_failure (sep : Char) (root : GoPath) (loadRes : ReadResult)
    (pages : List (Option (List Key))) (uploadOk : Key → Bool) (entries : List WalkEntry)
    (a0 : ArchivedFiles) (s3Files : List Key) (diskBefore : List Key)
    (hload : LoadArchivedFiles loadRes = .ok a0)
    (hlist : listS3Files pages = some s3Files) :
    (∀ k : Key, uploadOk k = false →
      k ∈ (runWalkEntries sep root s3Files uploadOk entries a0.files).archived →
      k ∈ a0.files) ∧
    (mainModel sep root loadRes pages uploadOk entries diskBefore).saves ≤ 1 ∧
    ((runWalkEntries sep root s3Files uploadOk entries a0.files).aborted = true →
      mainModel sep root loadRes pages uploadOk entries diskBefore =
        ⟨false, diskBefore,
          (runWalkEntries sep root s3Files uploadOk entries a0.files).attempts, 0⟩) := by
  have hmm : mainModel sep root loadRes pages uploadOk entries diskBefore =
      if (runWalkEntries sep root s3Files uploadOk entries a0.files).aborted then
        (⟨false, diskBefore,
          (runWalkEntries sep root s3Files uploadOk entries a0.files).attempts, 0⟩ : MainOutcome)
      else
        ⟨true, (runWalkEntries sep root s3Files uploadOk entries a0.files).archived,
          (runWalkEntries sep root s3Files uploadOk entries a0.files).attempts, 1⟩ := by
    unfold mainModel
    rw [hload, hlist]
  refine ⟨fun k => not_uploadOk_mem_archived sep root s3Files uploadOk entries a0.files k,
    ?_, ?_⟩
  · rw [hmm]
    by_cases hab : (runWalkEntries sep root s3Files uploadOk entries a0.files).aborted = true
    · rw [if_pos hab]
      exact Nat.zero_le 1
    · rw [if_neg hab]
  · intro hab
    rw [hmm, if_pos hab]

/-- Witness for C7 at concrete inputs: every upload fails, the only file
has key "a": the key is not appended, the run aborts, and the on-disk
record is untouched with zero saves. -/
theorem c7_upload_failure_witness :
    (∀ k : Key, (fun _ => false) k = false →
      k ∈ (runWalkEntries '/' ['r'] [] (fun _ => false)
        [⟨['r', '/', 'a'], false, true, false⟩] (⟨[]⟩ : ArchivedFiles).files).archived →
      k ∈ (⟨[]⟩ : ArchivedFiles).files) ∧
    (mainModel '/' ['r'] .notExist [] (fun _ => false)
      [⟨['r', '/', 'a'], false, true, false⟩] [['z']]).saves ≤ 1 ∧
    ((runWalkEntries '/' ['r'] [] (fun _ => false)
      [⟨['r', '/', 'a'], false, true, false⟩] (⟨[]⟩ : ArchivedFiles).files).aborted = true →
      mainModel '/' ['r'] .notExist [] (fun _ => false)
        [⟨['r', '/', 'a'], false, true, false⟩] [['z']] =
        ⟨false, [['z']],
          (runWalkEntries '/' ['r'] [] (fun _ => false)
            [⟨['r', '/', 'a'], false, true, false⟩] (⟨[]⟩ : ArchivedFiles).files).attempts, 0⟩) :=
  c7_upload_failure '/' ['r'] .notExist [] (fun _ => false)
    [⟨['r', '/', 'a'], false, true, false⟩] ⟨[]⟩ [] [['z']] rfl rfl

/-- C8 counterexample: GenerateArchiveFilePath is not injective on all
distinct archive roots: the roots "a/b" and "a_b" collide (separators
become underscores), and so do "a:b" and "a-b" (colons become hyphens). -/
theorem c8_counterexample :
    GenerateArchiveFilePath ['a', 'r', 'c', 'h', 'i', 'v', 'e', 's'] ['a', '/', 'b'] =
      GenerateArchiveFilePath ['a', 'r', 'c', 'h', 'i', 'v', 'e', 's'] ['a', '_', 'b'] ∧
    (['a', '/', 'b'] : List Char) ≠ ['a', '_', 'b'] ∧
    GenerateArchiveFilePath ['a', 'r', 'c', 'h', 'i', 'v', 'e', 's'] ['a', ':', 'b'] =
      GenerateArchiveFilePath ['a', 'r', 'c', 'h', 'i', 'v', 'e', 's'] ['a', '-', 'b'] ∧
    (['a', ':', 'b'] : List Char) ≠ ['a', '-', 'b'] := by decide

/-- C8 (amended): GenerateArchiveFilePath, under the code's default
archive directory "archives", is injective on archive roots that contain
neither '_' nor '-' (the two substitute characters): distinct such roots
derive distinct default manifest file paths. Roots that already contain
a substitute character can collide (see the counterexample). -/
theorem c8_distinct_roots (r1 r2 : List Char)
    (h1 : ∀ c ∈ r1, c ≠ '_' ∧ c ≠ '-') (h2 : ∀ c ∈ r2, c ≠ '_' ∧ c ≠ '-')
    (hne : r1 ≠ r2) :
    GenerateArchiveFilePath ['a', 'r', 'c', 'h', 'i', 'v', 'e', 's'] r1 ≠
      GenerateArchiveFilePath ['a', 'r', 'c', 'h', 'i', 'v', 'e', 's'] r2 := by
  intro heq
  apply hne
  have expand : ∀ r : List Char,
      GenerateArchiveFilePath ['a', 'r', 'c', 'h', 'i', 'v', 'e', 's'] r =
        ['a', 'r', 'c', 'h', 'i', 'v', 'e', 's'] ++ '/' ::
          (replaceAll1 ':' '-' (replaceAll1 '/' '_' r) ++ ['.', 'j', 's', 'o', 'n']) := by
    intro r
    show goJoin ['a', 'r', 'c', 'h', 'i', 'v', 'e', 's']
      (replaceAll1 ':' '-' (replaceAll1 '/' '_' r) ++ ['.', 'j', 's', 'o', 'n']) = _
    unfold goJoin
    rw [if_neg (by simp), if_neg (by simp)]
    apply goClean_two_comps
    · simp
    · decide
    · decide
    · decide
    · simp
    · intro hm
      rcases List.mem_append.mp hm with hm1 | hm2
      · exact no_slash_baseName2 r hm1
      · exact (by decide : ('/' : Char) ∉ ['.', 'j', 's', 'o', 'n']) hm2
    · intro hy
      have hlen := congrArg List.length hy
      simp [replaceAll1] at hlen
    · intro hy
      have hlen := congrArg List.length hy
      simp [replaceAll1] at hlen
  rw [expand r1, expand r2] at heq
  have h3 := List.append_cancel_left heq
  injection h3 with hh h4
  exact baseName2_inj r1 r2 h1 h2 (List.append_cancel_right h4)

/-- Witness for C8 at concrete inputs: the underscore-free and
hyphen-free roots "x" and "y" map to distinct default manifest paths. -/
theorem c8_distinct_roots_witness :
    GenerateArchiveFilePath ['a', 'r', 'c', 'h', 'i', 'v', 'e', 's'] ['x'] ≠
      GenerateArchiveFilePath ['a', 'r', 'c', 'h', 'i', 'v', 'e', 's'] ['y'] :=
  c8_distinct_roots ['x'] ['y'] (by decide) (by decide) (by decide)

/-- C9 counterexample: a non-regular, non-directory entry (isRegular =
false, e.g. a fifo or symlink) is yielded for upload — the callback
checks only IsDir — so the one-entry run attempts to upload its key. -/
theorem c9_counterexample :
    (runWalkEntries '/' ['/', 'd'] [] (fun _ => true)
      [⟨['/', 'd', '/', 'f', '1'], false, false, false⟩] []).attempts = [['f', '1']] := by
  decide

/-- C9 (amended): the walk traverses directories without yielding them;
a reported filesystem error aborts the callback, and the whole walk
stops at the first error — entries after it are never processed, and the
run is marked aborted; but every non-directory entry is yielded whether
or not it is a regular file: the callback's behaviour is independent of
the isRegular flag (non-regular entries are not filtered; see the
counterexample). -/
theorem c9_walk_yields (sep : Char) (root : GoPath) (s3Files : List Key)
    (uploadOk : Key → Bool) :
    (∀ (a : List Key) (e : WalkEntry), e.err = false → e.isDir = true →
      walkCallback sep root s3Files uploadOk a e = .cont a none) ∧
    (∀ (a : List Key) (e : WalkEntry), e.err = true →
      walkCallback sep root s3Files uploadOk a e = .abort none) ∧
    (∀ (a0 : List Key) (pre : List WalkEntry) (e : WalkEntry) (post : List WalkEntry),
      e.err = true →
      runWalkEntries sep root s3Files uploadOk (pre ++ e :: post) a0 =
        runWalkEntries sep root s3Files uploadOk (pre ++ [e]) a0 ∧
      (runWalkEntries sep root s3Files uploadOk (pre ++ e :: post) a0).aborted = true) ∧
    (∀ (a : List Key) (e : WalkEntry) (b : Bool),
      walkCallback sep root s3Files uploadOk a e =
        walkCallback sep root s3Files uploadOk a { e with isRegular := b }) := by
  refine ⟨?_, ?_, ?_, ?_⟩
  · intro a e herr hdir
    unfold walkCallback
    simp [herr, hdir]
  · intro a e herr
    unfold walkCallback
    simp [herr]
  · intro a0 pre e post herr
    exact run_err_cut sep root s3Files uploadOk e herr pre post a0
  · intro a e b
    cases e with
    | mk p d r er => rfl

/-- Witness for C9 at concrete inputs: a directory entry yields nothing,
and a run whose second entry reports a filesystem error is aborted. -/
theorem c9_walk_yields_witness :
    walkCallback '/' ['r'] [] (fun _ => true) [] ⟨['r'], true, false, false⟩ = .cont [] none ∧
    (runWalkEntries '/' ['r'] [] (fun _ => true)
      ([⟨['r', '/', 'x'], false, true, false⟩] ++
        (⟨['r', '/', 'y'], false, true, true⟩ : WalkEntry) ::
          [⟨['r', '/', 'z'], false, true, false⟩]) []).aborted = true :=
  ⟨(c9_walk_yields '/' ['r'] [] (fun _ => true)).1 [] ⟨['r'], true, false, false⟩ rfl rfl,
   ((c9_walk_yields '/' ['r'] [] (fun _ => true)).2.2.1 []
     [⟨['r', '/', 'x'], false, true, false⟩] ⟨['r', '/', 'y'], false, true, true⟩
     [⟨['r', '/', 'z'], false, true, false⟩] rfl).2⟩

/-- C10 counterexample: the manifest contents {"files": 3} are
well-formed JSON, yet LoadArchivedFiles rejects them (a type-mismatch
unmarshal error), so it is not only syntactically invalid JSON that is
rejected. -/
theorem c10_counterexample :
    LoadArchivedFiles (.ok (.wellFormed
      (.obj [(['f', 'i', 'l', 'e', 's'], .num 3)]))) = .error .unmarshalErr := rfl

/-- C10 (amended): for every manifest file whose contents are well-formed
JSON in which every key matching "files" is bound to null — in
particular JSON objects lacking the field altogether, such as {} —
LoadArchivedFiles succeeds with an empty key list; but besides
syntactically invalid JSON, well-formed JSON of the wrong shape (e.g. a
"files" field holding a number) is also rejected (see the
counterexample). -/
theorem c10_absent_or_null_files (fields : List (List Char × Json))
    (h : ∀ p ∈ fields, matchesFiles p.1 = true → p.2 = Json.null) :
    LoadArchivedFiles (.ok (.wellFormed (.obj fields))) = .ok ⟨[]⟩ := by
  have hu : unmarshalFields [] fields = some [] := unmarshalFields_keep fields [] h
  show (match unmarshalArchived (.obj fields) with
    | some a => Except.ok a
    | none => Except.error LoadError.unmarshalErr) = .ok ⟨[]⟩
  show (match (unmarshalFields [] fields).map ArchivedFiles.mk with
    | some a => Except.ok a
    | none => Except.error LoadError.unmarshalErr) = .ok ⟨[]⟩
  rw [hu]
  rfl

/-- Witness for C10 at concrete inputs: the empty JSON object {} and the
object {"files": null} both load as the empty manifest. -/
theorem c10_absent_or_null_files_witness :
    LoadArchivedFiles (.ok (.wellFormed (.obj []))) = .ok ⟨[]⟩ ∧
    LoadArchivedFiles (.ok (.wellFormed
      (.obj [(['f', 'i', 'l', 'e', 's'], .null)]))) = .ok ⟨[]⟩ :=
  ⟨c10_absent_or_null_files [] (by simp),
   c10_absent_or_null_files [(['f', 'i', 'l', 'e', 's'], .null)] (by simp)⟩
